import Mathlib

/-!
Verification of the TUID resolution service (`src/tuid/service.py`).

The definitions below are a shallow embedding of the functions of
`TUIDService` that the claims are about.  Pure Python functions become Lean
functions; the mutable `next_tuid` counter is threaded explicitly as state;
Python ints are modelled as `Int` (or `Nat` where the source only ever holds
non-negative values, such as diff line numbers); sqlite rows and the
dynamically typed values flowing through the classification pass of
`get_tuids_from_files` are modelled by a small `PyVal` type together with
Python's equality and truthiness on those value kinds.
-/

namespace Tuid

/-! ### TUID allocator (`TUIDService.tuid`, `__init__`, `_insert_max_tuid`) -/

/-- `TUIDService.tuid` (service.py:103-111): returns `self.next_tuid`, then
increments it.  The counter is the only state, threaded explicitly. -/
def tuidStep (next_tuid : Int) : Int × Int :=
  (next_tuid, next_tuid + 1)

/-- `n` consecutive calls to `TUIDService.tuid`, starting from counter value
`s`: the list of returned TUIDs and the final counter value. -/
def allocMany : Nat → Int → List Int × Int
  | 0, s => ([], s)
  | n + 1, s =>
    let (t, s1) := tuidStep s
    let (rest, s2) := allocMany n s1
    (t :: rest, s2)

/-- `TUIDService._insert_max_tuid` (service.py:157-162): persists the current
in-memory counter into the single-row `temporal` table (`id = 1`), replacing
any previous row.  The persisted store is the `Option Int` holding that row's
`tuid` column. -/
def insert_max_tuid (next_tuid : Int) (_stored : Option Int) : Option Int :=
  some next_tuid

/-- Counter initialisation in `TUIDService.__init__` (service.py:86):
`self.next_tuid = coalesce(self.conn.get_one("SELECT max(tuid) FROM temporal")[0], 1)`.
`SELECT max(tuid)` over the single-row table yields the stored value, or NULL
when the table is empty; `coalesce` turns NULL into `1`. -/
def startupNextTuid (storedMax : Option Int) : Int :=
  storedMax.getD 1

/-! ### Merge-diff heuristic (`TUIDService._get_hg_diff`, service.py:243-262) -/

/-- The changeset data `_get_hg_diff` reads from the hg cache: the per-file
move records and the commit description. -/
structure Changeset (M : Type) where
  moves : List M
  description : String

/-- Result of `_get_hg_diff`: the diff records plus the merge flag. -/
structure HgDiffResult (M : Type) where
  diffs : List M
  merge : Bool

/-- `check_merge` (service.py:244-249): a description marks a merge iff it
starts with the literal "merge " or "Merge ". -/
def check_merge (description : String) : Bool :=
  if description.startsWith "merge " then true
  else if description.startsWith "Merge " then true
  else false

/-- `TUIDService._get_hg_diff` (service.py:243-262), after the hg fetch: the
output carries the changeset's `moves` as `diffs` and `check_merge` of the
changeset's description as `merge`. -/
def get_hg_diff {M : Type} (cs : Changeset M) : HgDiffResult M :=
  { diffs := cs.moves, merge := check_merge cs.description }

/-! ### Branch guard (`_check_branch`, service.py:359-390, and its use in
`get_tuids_from_files`, service.py:499-508) -/

/-- What the changelog fetch (`get_clog` on `json-log`) can produce at
`_check_branch`: an exception, a string response (hgweb's way of saying the
revision is not there), or a proper changeset-log object. -/
inductive ClogResponse where
  | fetchError
  | strResponse (s : String)
  | clogObject (changesets : List String)
deriving Repr, DecidableEq

/-- `TUIDService._check_branch` (service.py:359-390): `res` starts `True`,
becomes `False` when the changelog fetch raises or returns a string. -/
def check_branch (resp : ClogResponse) : Bool :=
  match resp with
  | .fetchError => false
  | .strResponse _ => false
  | .clogObject _ => true

/-- Duration argument of the `@cache` decorator on `_check_branch`
(service.py:359): `30 * MINUTE`, in minutes. -/
def CHECK_BRANCH_CACHE_MINUTES : Nat := 30

/-- The guard at the top of `get_tuids_from_files` (service.py:501-508): when
the caller passes no `repo`, the revision is checked against the default
branch; on failure the function returns `[(file, []) for file in files]`
together with `completed` (still `True` at that point).  `none` means the
guard does not fire and the function continues. -/
def branchGuard (repo : Option String) (resp : ClogResponse)
    (files : List String) : Option (List (String × List Int) × Bool) :=
  match repo with
  | some _ => none
  | none =>
    if check_branch resp then none
    else some (files.map (fun file => (file, [])), true)

/-! ### Python values for the classification pass

`_get_latest_revision` (service.py:218-221) returns what `conn.get_one`
yields: `None` when there is no `latestFileMod` row for the file, or the
one-column row tuple `(revision,)`.  The classification pass of
`get_tuids_from_files` (service.py:544-577) compares that value with `[0]`
indexing, with Python `==` against a string, and with Python truthiness.
`PyVal` embeds exactly the value kinds that occur there. -/

/-- A Python value at the classification call sites: `None`, a string, or a
fetched one-column sqlite row (a tuple of strings). -/
inductive PyVal where
  | pyNone
  | pyStr (s : String)
  | pyRow (cols : List String)
deriving Repr, DecidableEq

/-- Python `==` on the value kinds above.  `None` equals only `None`, strings
compare by content, row tuples compare elementwise; a tuple never equals a
string and neither equals `None`. -/
def pyEq : PyVal → PyVal → Bool
  | .pyNone, .pyNone => true
  | .pyStr a, .pyStr b => a == b
  | .pyRow a, .pyRow b => a == b
  | _, _ => false

/-- Python truthiness: `None` is falsy, strings and tuples are truthy iff
non-empty. -/
def pyTruthy : PyVal → Bool
  | .pyNone => false
  | .pyStr s => !(s == "")
  | .pyRow cols => !cols.isEmpty

/-- Python `v[0]` for the values indexed in the classification pass (only
ever evaluated on a truthy row). -/
def pyIndex0 : PyVal → PyVal
  | .pyRow (c :: _) => .pyStr c
  | _ => .pyNone

/-- What `_get_annotation` returns for a (revision, file) key: absent
(`Null`, falsy, not equal to `""`), the dummy/tombstone empty string, or the
stored list of TUIDs. -/
inductive AnnValue where
  | missing
  | tombstone
  | present (tuids : List Int)
deriving Repr, DecidableEq

/-- Truthiness of the annotation value (`if already_ann:`):
only a non-empty stored list is truthy. -/
def annTruthy : AnnValue → Bool
  | .present l => !l.isEmpty
  | _ => false

/-- The `already_ann == ""` test: true exactly for the tombstone entry. -/
def annIsEmptyStr : AnnValue → Bool
  | .tombstone => true
  | _ => false

/-- Where the classification pass routes one requested file. -/
inductive Route where
  /-- annotation found: answered from cache (service.py:550-554) -/
  | cached
  /-- tombstone found: answered as removed file (service.py:555-559) -/
  | removed
  /-- frontier differs from the requested revision: pushed into
  `frontier_update_list` (service.py:561-565) -/
  | frontier (oldRev : String)
  /-- appended to `new_files`; the flag records whether the
  `DELETE FROM latestFileMod` branch ran (service.py:566-577) -/
  | newFile (deletedFrontier : Bool)
deriving Repr, DecidableEq

/-- The per-file classification pass of `get_tuids_from_files`
(service.py:544-577), transcribed branch by branch:

    if already_ann: cached
    elif already_ann == "": removed
    if latest_rev and latest_rev[0] != revision: frontier update
    elif latest_rev == revision: DELETE row; new file
    else: new file

`latest_rev` is the raw `get_one` result (a row tuple or `None`), so the
`latest_rev == revision` comparison is the Python `==` between such a value
and a string. -/
def classifyFile (latest_rev : PyVal) (already_ann : AnnValue)
    (revision : String) : Route :=
  if annTruthy already_ann then .cached
  else if annIsEmptyStr already_ann then .removed
  else if pyTruthy latest_rev && !(pyEq (pyIndex0 latest_rev) (.pyStr revision)) then
    .frontier (match pyIndex0 latest_rev with | .pyStr s => s | _ => "")
  else if pyEq latest_rev (.pyStr revision) then .newFile true
  else .newFile false

end Tuid

namespace Tuid

/-! ## Theorems -/

/-- The final counter after `n` calls to `tuid` from `t` is `t + n`. -/
theorem allocMany_snd (n : Nat) : ∀ t : Int, (allocMany n t).2 = t + n := by
  induction n with
  | zero => intro t; simp [allocMany]
  | succ m ih =>
    intro t
    show (allocMany m (t + 1)).2 = t + (m + 1 : Nat)
    rw [ih (t + 1)]
    push_cast
    ring

/-- The TUIDs returned by `n` calls to `tuid` from `t` are `t, t+1, …`. -/
theorem allocMany_fst (n : Nat) :
    ∀ t : Int, (allocMany n t).1 = (List.range n).map (fun i : Nat => t + (i : Int)) := by
  induction n with
  | zero => intro t; simp [allocMany]
  | succ m ih =>
    intro t
    show t :: (allocMany m (t + 1)).1 =
      (List.range (m + 1)).map (fun i : Nat => t + (i : Int))
    rw [ih (t + 1), List.range_succ_eq_map, List.map_cons, List.map_map]
    congr 1
    · norm_num
    · apply List.map_congr_left
      intro i _
      simp only [Function.comp_apply, Nat.succ_eq_add_one]
      push_cast
      ring

/-- **C2.** For every N ≥ 0, after N calls to `TUIDService.tuid` starting
from counter value `s`, the counter (and hence the high-water mark persisted
by `_insert_max_tuid`) equals `s + N`, so it is at least `N + s`, and the N
returned TUIDs are pairwise distinct (they are `s, s+1, …, s+N-1`). -/
theorem tuid_allocMany_monotone_and_distinct (N : Nat) (s : Int) :
    (allocMany N s).2 = s + N ∧
    insert_max_tuid (allocMany N s).2 none = some (s + N) ∧
    N + s ≤ (allocMany N s).2 ∧
    (allocMany N s).1 = (List.range N).map (fun i : Nat => s + (i : Int)) ∧
    (allocMany N s).1.Nodup := by
  have h2 := allocMany_snd N s
  have h1 := allocMany_fst N s
  refine ⟨h2, by rw [h2]; rfl, by rw [h2]; omega, h1, ?_⟩
  rw [h1]
  refine List.Nodup.map ?_ (List.nodup_range N)
  intro a b hab
  have h : (a : Int) = b := by simpa using hab
  exact_mod_cast h

/-- **C3.** The startup initialisation `coalesce(max(temporal.tuid), 1)`
(service.py:86) yields 1 on an empty store; and after a run that starts from
an empty store, issues N ≥ 1 TUIDs and persists the high-water mark with
`_insert_max_tuid`, a restarted service's counter equals `max(issued) + 1`
(witnessed by `N` being issued, bounding all issued TUIDs, and the counter
being `N + 1`), so the first `tuid()` call after the restart is strictly
greater than every previously persisted TUID. -/
theorem startup_counter_resumes_above_persisted (N : Nat) (hN : 0 < N) :
    startupNextTuid none = 1 ∧
    ((N : Int) ∈ (allocMany N 1).1 ∧
      ∀ t ∈ (allocMany N 1).1, t ≤ (N : Int)) ∧
    startupNextTuid (insert_max_tuid (allocMany N 1).2 none) = (N : Int) + 1 ∧
    ∀ t ∈ (allocMany N 1).1,
      t < (tuidStep (startupNextTuid (insert_max_tuid (allocMany N 1).2 none))).1 := by
  have hsnd := allocMany_snd N 1
  have hfst := allocMany_fst N 1
  have hcounter :
      startupNextTuid (insert_max_tuid (allocMany N 1).2 none) = (N : Int) + 1 := by
    rw [hsnd]
    show (1 : Int) + N = (N : Int) + 1
    ring
  refine ⟨rfl, ⟨?_, ?_⟩, hcounter, ?_⟩
  · rw [hfst]
    refine List.mem_map.mpr ⟨N - 1, List.mem_range.mpr (by omega), ?_⟩
    omega
  · intro t ht
    rw [hfst] at ht
    obtain ⟨i, hi, rfl⟩ := List.mem_map.mp ht
    have := List.mem_range.mp hi
    omega
  · intro t ht
    rw [hfst] at ht
    obtain ⟨i, hi, rfl⟩ := List.mem_map.mp ht
    have := List.mem_range.mp hi
    rw [hcounter]
    show (1 : Int) + i < (N : Int) + 1
    omega

/-- Witness for C3 at N = 3: three TUIDs 1, 2, 3 are issued and persisted;
the restarted counter is 4 and the first TUID handed out afterwards
exceeds all of them. -/
theorem startup_counter_resumes_above_persisted_witness :
    0 < 3 ∧
    (startupNextTuid none = 1 ∧
      (((3 : Nat) : Int) ∈ (allocMany 3 1).1 ∧
        ∀ t ∈ (allocMany 3 1).1, t ≤ ((3 : Nat) : Int)) ∧
      startupNextTuid (insert_max_tuid (allocMany 3 1).2 none) = ((3 : Nat) : Int) + 1 ∧
      ∀ t ∈ (allocMany 3 1).1,
        t < (tuidStep (startupNextTuid (insert_max_tuid (allocMany 3 1).2 none))).1) :=
  ⟨by decide, startup_counter_resumes_above_persisted 3 (by decide)⟩

/-- **C10.** `_get_hg_diff` (service.py:243-262) marks a fetched revision's
diff as a merge iff the changeset description starts with the literal
"merge " or "Merge "; the diff records themselves are passed through
unchanged.  The heuristic looks only at the commit message, never at the
parent count. -/
theorem get_hg_diff_merge_iff_description {M : Type}
    (moves : List M) (desc : String) :
    ((get_hg_diff ⟨moves, desc⟩).merge = true ↔
      desc.startsWith "merge " = true ∨ desc.startsWith "Merge " = true) ∧
    (get_hg_diff ⟨moves, desc⟩).diffs = moves := by
  refine ⟨?_, rfl⟩
  simp only [get_hg_diff]
  cases h1 : desc.startsWith "merge " <;>
    cases h2 : desc.startsWith "Merge " <;>
      simp [check_merge, h1, h2]

/-- **C8.** When the caller passes no `repo`, a failed branch check (the
changelog fetch raised, or returned a string meaning the revision is absent
from the branch) makes `get_tuids_from_files` return `(file, [])` for every
requested file with `completed = true`; `_check_branch` results are cached
for 30 minutes. -/
theorem branch_guard_failure_returns_empty (files : List String)
    (resp : ClogResponse)
    (h : resp = ClogResponse.fetchError ∨ ∃ s, resp = ClogResponse.strResponse s) :
    branchGuard none resp files =
      some (files.map (fun file => (file, ([] : List Int))), true) ∧
    CHECK_BRANCH_CACHE_MINUTES = 30 := by
  rcases h with h | ⟨s, h⟩ <;> subst h <;> exact ⟨rfl, rfl⟩

/-- Witness for C8: a concrete two-file request at a revision whose
changelog lookup returned the hgweb "not found" string. -/
theorem branch_guard_failure_returns_empty_witness :
    (ClogResponse.strResponse "unknown revision" = ClogResponse.fetchError ∨
      ∃ s, ClogResponse.strResponse "unknown revision" = ClogResponse.strResponse s) ∧
    (branchGuard none (ClogResponse.strResponse "unknown revision") ["a.txt", "b.txt"] =
        some ([("a.txt", ([] : List Int)), ("b.txt", ([] : List Int))], true) ∧
      CHECK_BRANCH_CACHE_MINUTES = 30) :=
  ⟨Or.inr ⟨"unknown revision", rfl⟩,
    branch_guard_failure_returns_empty ["a.txt", "b.txt"]
      (ClogResponse.strResponse "unknown revision")
      (Or.inr ⟨"unknown revision", rfl⟩)⟩

/-- **C1 (code bug).** In the classification pass, a file whose
`latestFileMod` row holds exactly the requested revision while no annotation
exists is routed as new **without** the frontier row being deleted: the
`elif latest_rev == revision` test (service.py:566) compares the one-column
row tuple returned by `_get_latest_revision` against the revision string,
which is always false in Python, so the `DELETE FROM latestFileMod` branch
is unreachable for every value `_get_latest_revision` can produce (a row or
`None`). -/
theorem classify_equal_frontier_never_deletes_row :
    classifyFile (PyVal.pyRow ["0123456789ab"]) AnnValue.missing "0123456789ab" =
      Route.newFile false ∧
    (∀ (cols : List String) (ann : AnnValue) (rev : String),
      classifyFile (PyVal.pyRow cols) ann rev ≠ Route.newFile true) ∧
    (∀ (ann : AnnValue) (rev : String),
      classifyFile PyVal.pyNone ann rev ≠ Route.newFile true) := by
  refine ⟨rfl, ?_, ?_⟩
  · intro cols ann rev
    unfold classifyFile
    have heq : pyEq (PyVal.pyRow cols) (PyVal.pyStr rev) = false := rfl
    split_ifs with h1 h2 h3 h4 <;> simp_all
  · intro ann rev
    unfold classifyFile
    split_ifs with h1 h2 h3 h4 <;> simp_all [pyEq, pyTruthy]

/-! ### Diff applier (`TUIDService._apply_diff`, service.py:719-781)

`TuidMap` is the `(tuid, line)` named tuple of `tuid/util.py`: a TUID paired
with a 1-based line number.  Diff line numbers (`change.line`) and annotation
line numbers are non-negative Python ints, modelled as `Nat`; TUID values
are modelled as `Int` (matching the `-1` sentinel `stringify_tuids` uses). -/

/-- The `(tuid, line)` pair of an annotation entry (`TuidMap` in tuid/util). -/
structure TuidMap where
  tuid : Int
  line : Nat
deriving Repr, DecidableEq

/-- A change record's action: `'+'` or `'-'` (spec data model §3). -/
inductive Action where
  | add
  | sub
deriving Repr, DecidableEq

/-- One change operation of a per-file diff record: `{action, line}`. -/
structure Change where
  action : Action
  line : Nat
deriving Repr, DecidableEq

/-- One per-file record of a revision's diff: `{old: {name}, new: {name},
changes}`. -/
structure DiffEntry where
  old_name : String
  new_name : String
  changes : List Change
deriving Repr, DecidableEq

/-- The diff object `_apply_diff` consumes: exactly the `_get_hg_diff`
output shape, instantiated at per-file records. -/
abbrev FileDiff := HgDiffResult DiffEntry

/-- Python `s.lstrip("/")`: strip all leading slashes. -/
def lstrip_slash (s : String) : String :=
  ⟨s.data.dropWhile (· == '/')⟩

/-- `new_ann.sort(key=lambda x: x.line)` (service.py:741): stable sort of the
annotation by line number (insertion sort is stable, like Python's
`list.sort`). -/
def sortByLine (l : List TuidMap) : List TuidMap :=
  List.insertionSort (fun a b => a.line ≤ b.line) l

/-- `add_one` (service.py:743-749): splice `tl` in at 1-based position
`tl.line` and push every later entry's line number up by one.  Python's
`lines[:start-1]`/`lines[start-1:]` slices are `take`/`drop`; at every call
site `start = change.line + 1 ≥ 1`, so the `Nat` subtraction is exact. -/
def add_one (tl : TuidMap) (lines : List TuidMap) : List TuidMap :=
  let start := tl.line
  lines.take (start - 1) ++ [tl] ++
    (lines.drop (start - 1)).map (fun tmap => ⟨tmap.tuid, tmap.line + 1⟩)

/-- `remove_one` (service.py:751-754): drop the entry at 1-based position
`start` and pull every later entry's line number down by one. -/
def remove_one (start : Nat) (lines : List TuidMap) : List TuidMap :=
  lines.take (start - 1) ++
    (lines.drop start).map (fun tmap => ⟨tmap.tuid, tmap.line - 1⟩)

/-- The mutable state of the change loop in `_apply_diff`: the allocator
counter (`self.next_tuid`), the pending `list_to_insert` rows
`(tuid, cset, file, line)`, and the annotation being rewritten. -/
structure ApplyState where
  next_tuid : Int
  inserts : List (Int × String × String × Nat)
  ann : List TuidMap
deriving Repr, DecidableEq

/-- One iteration of the change loop (service.py:769-775): `'+'` allocates a
fresh TUID via `tuid()`, logs `(new_tuid, cset, file, change.line + 1)` and
splices with `add_one`; `'-'` calls `remove_one(change.line + 1)`. -/
def applyChange (cset file : String) (st : ApplyState) (change : Change) :
    ApplyState :=
  match change.action with
  | .add =>
    let (new_tuid, next) := tuidStep st.next_tuid
    { next_tuid := next,
      inserts := st.inserts ++ [(new_tuid, cset, file, change.line + 1)],
      ann := add_one ⟨new_tuid, change.line + 1⟩ st.ann }
  | .sub =>
    { st with ann := remove_one (change.line + 1) st.ann }

/-- The value `_apply_diff` returns (annotation and possibly renamed file),
together with the threaded allocator counter and the pending temporal-log
rows it accumulated. -/
structure ApplyResult where
  ann : List TuidMap
  file : String
  next_tuid : Int
  inserts : List (Int × String × String × Nat)
deriving Repr, DecidableEq

/-- `TUIDService._apply_diff` (service.py:719-781), transcribed:

1. merge diffs are returned untouched;
2. a `dev/null` input file yields the empty annotation;
3. otherwise the annotation is copied and sorted by line, the first per-file
   record whose (slash-stripped) old or new name equals `file` is selected
   (`continue`/`break` loop = `find?`), rename-to-`dev/null` tombstones the
   file, a plain rename substitutes the new name, and the record's changes
   are applied in the order delivered;
4. a non-empty `list_to_insert` triggers `_insert_max_tuid` (reflected here
   by the threaded counter and the returned insert rows). -/
def apply_diff_fn (next_tuid : Int) (ann0 : List TuidMap)
    (diff : FileDiff) (cset file : String) : ApplyResult :=
  if diff.merge then ⟨ann0, file, next_tuid, []⟩
  else if lstrip_slash file == "dev/null" then ⟨[], file, next_tuid, []⟩
  else
    let new_ann := sortByLine ann0
    match diff.diffs.find? (fun f_proc =>
        lstrip_slash f_proc.new_name == file ||
        lstrip_slash f_proc.old_name == file) with
    | none => ⟨new_ann, file, next_tuid, []⟩
    | some f_proc =>
      let new_fname := lstrip_slash f_proc.new_name
      let old_fname := lstrip_slash f_proc.old_name
      if old_fname != new_fname && new_fname == "dev/null" then
        ⟨[], file, next_tuid, []⟩
      else
        let file1 := if old_fname != new_fname then new_fname else file
        let st := f_proc.changes.foldl (applyChange cset file1)
          ⟨next_tuid, [], new_ann⟩
        ⟨st.ann, file1, st.next_tuid, st.inserts⟩

end Tuid

namespace Tuid

/-- **C5.** `_apply_diff` on a diff whose merge flag is true returns the
annotation and filename unchanged, allocates no TUIDs (the counter is
untouched) and records nothing in the pending temporal log, for every
annotation, per-file record list, revision and file. -/
theorem apply_diff_merge_neutral (next : Int) (ann : List TuidMap)
    (entries : List DiffEntry) (cset file : String) :
    apply_diff_fn next ann ⟨entries, true⟩ cset file =
      ⟨ann, file, next, []⟩ := rfl

/-! ### Helper lemmas about `List.range'` (used to track the dense 1-based
line numbering of annotations through diff application) -/

theorem take_range'_eq (m : Nat) : ∀ s n : Nat,
    (List.range' s n).take m = List.range' s (min m n) := by
  induction m with
  | zero => intro s n; simp
  | succ k ih =>
    intro s n
    cases n with
    | zero => simp
    | succ j =>
      show (s :: List.range' (s + 1) j).take (k + 1) = _
      rw [List.take_succ_cons, ih (s + 1) j]
      have h : min (k + 1) (j + 1) = min k j + 1 := by omega
      rw [h]
      rfl

theorem drop_range'_eq (m : Nat) : ∀ s n : Nat,
    (List.range' s n).drop m = List.range' (s + m) (n - m) := by
  induction m with
  | zero => intro s n; simp
  | succ k ih =>
    intro s n
    cases n with
    | zero => simp
    | succ j =>
      show (s :: List.range' (s + 1) j).drop (k + 1) = _
      rw [List.drop_succ_cons, ih (s + 1) j]
      have h1 : s + 1 + k = s + (k + 1) := by omega
      have h2 : j - k = j + 1 - (k + 1) := by omega
      rw [h1, h2]

theorem map_add_one_range' (n : Nat) : ∀ s : Nat,
    (List.range' s n).map (fun x => x + 1) = List.range' (s + 1) n := by
  induction n with
  | zero => intro s; simp
  | succ j ih => intro s; simp [List.range', ih]

theorem map_sub_one_range' (n : Nat) : ∀ s : Nat,
    (List.range' (s + 1) n).map (fun x => x - 1) = List.range' s n := by
  induction n with
  | zero => intro s; simp
  | succ j ih =>
    intro s
    rw [List.range'_succ, List.range'_succ, List.map_cons, ih (s + 1)]
    simp

theorem range'_append_one (s m n : Nat) :
    List.range' s m ++ List.range' (s + m) n = List.range' s (m + n) := by
  have h := List.range'_append s m n 1
  rw [Nat.one_mul] at h
  rw [Nat.add_comm n m] at h
  exact h

/-! ### Abstract per-change semantics (the claim's wording)

The claim describes a `'+'` change as splicing one fresh TUID at 1-based
position `c.line + 1` (index `c.line`) and a `'-'` change as removing the
entry at that position, shifting subsequent line numbers.  On the sequence
of TUIDs alone this is list splice / removal at index `c.line`; the line
numbers stay the dense `1..N` numbering.  `specTuidFold` is that
description, folded over the changes in delivered order, also collecting the
pending temporal log `(fresh tuid, 1-based position)` of the `'+'` steps. -/

/-- Splice `t` in at 0-based index `k` (1-based position `k + 1`). -/
def spliceAt (k : Nat) (t : Int) (l : List Int) : List Int :=
  l.take k ++ t :: l.drop k

/-- Remove the element at 0-based index `k` (1-based position `k + 1`). -/
def removeAt (k : Nat) (l : List Int) : List Int :=
  l.take k ++ l.drop (k + 1)

/-- The claim's change semantics on the TUID sequence: fresh TUIDs are
`t, t+1, …` in `'+'` order; the third component is the pending temporal log
as `(fresh tuid, 1-based position)` pairs in delivered order. -/
def specTuidFold : List Int → Int → List Change → List Int × Int × List (Int × Nat)
  | tuids, t, [] => (tuids, t, [])
  | tuids, t, c :: cs =>
    match c.action with
    | .add =>
      let r := specTuidFold (spliceAt c.line t tuids) (t + 1) cs
      (r.1, r.2.1, (t, c.line + 1) :: r.2.2)
    | .sub => specTuidFold (removeAt c.line tuids) t cs

/-- Length of the annotation after one change. -/
def changeLen (len : Nat) (c : Change) : Nat :=
  match c.action with
  | .add => len + 1
  | .sub => len - 1

/-- Every change lands inside the current annotation: a `'+'` at 1-based
position `c.line + 1 ≤ len + 1`, a `'-'` at position `c.line + 1 ≤ len`,
with the length threaded through the sequence. -/
def changesInRange : Nat → List Change → Bool
  | _, [] => true
  | len, c :: cs =>
    (match c.action with
     | .add => decide (c.line ≤ len)
     | .sub => decide (c.line + 1 ≤ len)) && changesInRange (changeLen len c) cs

/-- Number of `'+'` changes. -/
def plusCount (changes : List Change) : Nat :=
  changes.countP (fun c => decide (c.action = Action.add))

/-- Number of `'-'` changes. -/
def subCount (changes : List Change) : Nat :=
  changes.countP (fun c => decide (c.action = Action.sub))

/-- **C4 counterexample.** The claim's length law fails as stated: a `'-'`
change whose position `c.line + 1` lies beyond the end of the annotation is
a no-op in `_apply_diff` (Python slicing truncates), so on a one-line
annotation a non-merge diff entry for the file carrying a single `'-'`
change at line 4 returns a one-line annotation, not the claimed
`1 + 0 - 1 = 0` lines.  No entry at position 5 is removed. -/
theorem apply_diff_out_of_range_sub_counterexample :
    ¬ (((apply_diff_fn 1 [⟨7, 1⟩]
            ⟨[⟨"a.txt", "a.txt", [⟨Action.sub, 4⟩]⟩], false⟩ "r2" "a.txt").ann.length : Int) =
          (([⟨7, 1⟩] : List TuidMap).length : Int) +
            (plusCount [⟨Action.sub, 4⟩] : Int) - (subCount [⟨Action.sub, 4⟩] : Int)) := by
  decide

/-- A `'+'` change applied by `add_one` at an in-range position: on the TUID
sequence it is a splice at index `c`, and the line numbers stay the dense
`1..N+1` numbering. -/
theorem add_one_step (t : Int) (c : Nat) (A : List TuidMap) (N : Nat)
    (hline : A.map TuidMap.line = List.range' 1 N) (hc : c ≤ N) :
    (add_one ⟨t, c + 1⟩ A).map TuidMap.tuid = spliceAt c t (A.map TuidMap.tuid) ∧
    (add_one ⟨t, c + 1⟩ A).map TuidMap.line = List.range' 1 (N + 1) := by
  have hA : add_one ⟨t, c + 1⟩ A =
      A.take c ++ [⟨t, c + 1⟩] ++
        (A.drop c).map (fun tmap => ⟨tmap.tuid, tmap.line + 1⟩) := rfl
  constructor
  · rw [hA]
    simp only [List.map_append, List.map_cons, List.map_nil, List.map_map]
    have h1 : (TuidMap.tuid ∘ fun tmap : TuidMap =>
        (⟨tmap.tuid, tmap.line + 1⟩ : TuidMap)) = TuidMap.tuid := rfl
    rw [h1, List.map_take, List.map_drop, spliceAt]
    simp
  · rw [hA]
    simp only [List.map_append, List.map_cons, List.map_nil, List.map_map]
    have h1 : (TuidMap.line ∘ fun tmap : TuidMap =>
        (⟨tmap.tuid, tmap.line + 1⟩ : TuidMap)) =
        (fun x => x + 1) ∘ TuidMap.line := rfl
    rw [h1, ← List.map_map, List.map_take, List.map_drop, hline]
    rw [take_range'_eq, drop_range'_eq, map_add_one_range']
    rw [Nat.min_eq_left hc, List.append_assoc, List.singleton_append]
    have hcons : (c + 1) :: List.range' (1 + c + 1) (N - c) =
        List.range' (c + 1) ((N - c) + 1) := by
      rw [List.range'_succ]
      have harg : 1 + c + 1 = c + 1 + 1 := by omega
      rw [harg]
    have happ : List.range' 1 c ++ List.range' (1 + c) ((N - c) + 1) =
        List.range' 1 (c + ((N - c) + 1)) := range'_append_one 1 c ((N - c) + 1)
    have harith : c + ((N - c) + 1) = N + 1 := by omega
    calc List.range' 1 c ++ (c + 1) :: List.range' (1 + c + 1) (N - c)
        = List.range' 1 c ++ List.range' (c + 1) ((N - c) + 1) := by rw [hcons]
      _ = List.range' 1 c ++ List.range' (1 + c) ((N - c) + 1) := by
            rw [Nat.add_comm 1 c]
      _ = List.range' 1 (c + ((N - c) + 1)) := happ
      _ = List.range' 1 (N + 1) := by rw [harith]

/-- A `'-'` change applied by `remove_one` at an in-range position: on the
TUID sequence it removes the element at index `c`, and the line numbers stay
the dense `1..N-1` numbering. -/
theorem remove_one_step (c : Nat) (A : List TuidMap) (N : Nat)
    (hline : A.map TuidMap.line = List.range' 1 N) (hc : c + 1 ≤ N) :
    (remove_one (c + 1) A).map TuidMap.tuid = removeAt c (A.map TuidMap.tuid) ∧
    (remove_one (c + 1) A).map TuidMap.line = List.range' 1 (N - 1) := by
  have hA : remove_one (c + 1) A =
      A.take c ++ (A.drop (c + 1)).map (fun tmap => ⟨tmap.tuid, tmap.line - 1⟩) := rfl
  constructor
  · rw [hA]
    simp only [List.map_append, List.map_map]
    have h1 : (TuidMap.tuid ∘ fun tmap : TuidMap =>
        (⟨tmap.tuid, tmap.line - 1⟩ : TuidMap)) = TuidMap.tuid := rfl
    rw [h1, List.map_take, List.map_drop, removeAt]
  · rw [hA]
    simp only [List.map_append, List.map_map]
    have h1 : (TuidMap.line ∘ fun tmap : TuidMap =>
        (⟨tmap.tuid, tmap.line - 1⟩ : TuidMap)) =
        (fun x => x - 1) ∘ TuidMap.line := rfl
    rw [h1, ← List.map_map, List.map_take, List.map_drop, hline]
    rw [take_range'_eq, drop_range'_eq]
    rw [Nat.min_eq_left (by omega : c ≤ N)]
    have hdrop : (1 : Nat) + (c + 1) = (c + 1) + 1 := by omega
    rw [hdrop, map_sub_one_range']
    have happ : List.range' 1 c ++ List.range' (1 + c) (N - (c + 1)) =
        List.range' 1 (c + (N - (c + 1))) := range'_append_one 1 c (N - (c + 1))
    have harith : c + (N - (c + 1)) = N - 1 := by omega
    rw [Nat.add_comm 1 c] at happ
    rw [happ, harith]

/-- The change loop of `_apply_diff`, run over a change list that stays in
range of a dense 1-based annotation, realises exactly the claim's
semantics: on the TUID sequence it is `specTuidFold` (splice the fresh TUID
`t, t+1, …` at index `c.line` for `'+'`, remove index `c.line` for `'-'`,
in delivered order), the pending temporal log collects `(fresh tuid, cset,
file, c.line + 1)` rows in order, and the line numbers remain the dense
numbering of the adjusted length. -/
theorem applyChanges_fold (cset file : String) :
    ∀ (changes : List Change) (st : ApplyState) (N : Nat),
      st.ann.map TuidMap.line = List.range' 1 N →
      changesInRange N changes = true →
      ((changes.foldl (applyChange cset file) st).ann.map TuidMap.tuid =
          (specTuidFold (st.ann.map TuidMap.tuid) st.next_tuid changes).1) ∧
      ((changes.foldl (applyChange cset file) st).next_tuid =
          (specTuidFold (st.ann.map TuidMap.tuid) st.next_tuid changes).2.1) ∧
      ((changes.foldl (applyChange cset file) st).inserts =
          st.inserts ++
            (specTuidFold (st.ann.map TuidMap.tuid) st.next_tuid changes).2.2.map
              (fun tp => (tp.1, cset, file, tp.2))) ∧
      ((changes.foldl (applyChange cset file) st).ann.map TuidMap.line =
          List.range' 1 (N + plusCount changes - subCount changes)) := by
  intro changes
  induction changes with
  | nil =>
    intro st N hline hrange
    refine ⟨rfl, rfl, by simp [specTuidFold], ?_⟩
    have h : N + plusCount [] - subCount [] = N := by
      simp [plusCount, subCount]
    rw [h]
    exact hline
  | cons c cs ih =>
    intro st N hline hrange
    obtain ⟨action, line⟩ := c
    cases action with
    | add =>
      have hguard : line ≤ N ∧ changesInRange (N + 1) cs = true := by
        have h := hrange
        simp [changesInRange, changeLen] at h
        exact h
      set st1 : ApplyState :=
        ⟨st.next_tuid + 1, st.inserts ++ [(st.next_tuid, cset, file, line + 1)],
          add_one ⟨st.next_tuid, line + 1⟩ st.ann⟩ with hst1def
      have hst1 : applyChange cset file st ⟨Action.add, line⟩ = st1 := rfl
      have hstep := add_one_step st.next_tuid line st.ann N hline hguard.1
      have hih := ih st1 (N + 1) (by rw [hst1def]; exact hstep.2) hguard.2
      have hfold : (⟨Action.add, line⟩ :: cs).foldl (applyChange cset file) st =
          cs.foldl (applyChange cset file) st1 := by
        rw [List.foldl_cons, hst1]
      have hspec : specTuidFold (st.ann.map TuidMap.tuid) st.next_tuid
            (⟨Action.add, line⟩ :: cs) =
          ((specTuidFold (spliceAt line st.next_tuid (st.ann.map TuidMap.tuid))
              (st.next_tuid + 1) cs).1,
            (specTuidFold (spliceAt line st.next_tuid (st.ann.map TuidMap.tuid))
              (st.next_tuid + 1) cs).2.1,
            (st.next_tuid, line + 1) ::
              (specTuidFold (spliceAt line st.next_tuid (st.ann.map TuidMap.tuid))
                (st.next_tuid + 1) cs).2.2) := rfl
      have htuid1 : st1.ann.map TuidMap.tuid =
          spliceAt line st.next_tuid (st.ann.map TuidMap.tuid) := hstep.1
      have hnext1 : st1.next_tuid = st.next_tuid + 1 := rfl
      refine ⟨?_, ?_, ?_, ?_⟩
      · rw [hfold, hspec, hih.1, htuid1, hnext1]
      · rw [hfold, hspec, hih.2.1, htuid1, hnext1]
      · rw [hfold, hspec, hih.2.2.1, htuid1, hnext1]
        show st.inserts ++ [(st.next_tuid, cset, file, line + 1)] ++ _ = _
        rw [List.append_assoc, List.singleton_append, List.map_cons]
      · rw [hfold]
        have harith : (N + 1) + plusCount cs - subCount cs =
            N + plusCount (⟨Action.add, line⟩ :: cs) -
              subCount (⟨Action.add, line⟩ :: cs) := by
          simp [plusCount, subCount, List.countP_cons]
          omega
        rw [← harith]
        exact hih.2.2.2
    | sub =>
      have hguard : line + 1 ≤ N ∧ changesInRange (N - 1) cs = true := by
        have h := hrange
        simp [changesInRange, changeLen] at h
        exact h
      set st1 : ApplyState :=
        ⟨st.next_tuid, st.inserts, remove_one (line + 1) st.ann⟩ with hst1def
      have hst1 : applyChange cset file st ⟨Action.sub, line⟩ = st1 := rfl
      have hstep := remove_one_step line st.ann N hline hguard.1
      have hih := ih st1 (N - 1) (by rw [hst1def]; exact hstep.2) hguard.2
      have hfold : (⟨Action.sub, line⟩ :: cs).foldl (applyChange cset file) st =
          cs.foldl (applyChange cset file) st1 := by
        rw [List.foldl_cons, hst1]
      have hspec : specTuidFold (st.ann.map TuidMap.tuid) st.next_tuid
            (⟨Action.sub, line⟩ :: cs) =
          specTuidFold (removeAt line (st.ann.map TuidMap.tuid))
            st.next_tuid cs := rfl
      have htuid1 : st1.ann.map TuidMap.tuid =
          removeAt line (st.ann.map TuidMap.tuid) := hstep.1
      refine ⟨?_, ?_, ?_, ?_⟩
      · rw [hfold, hspec, hih.1, htuid1]
      · rw [hfold, hspec, hih.2.1, htuid1]
      · rw [hfold, hspec, hih.2.2.1, htuid1]
      · rw [hfold]
        have harith : (N - 1) + plusCount cs - subCount cs =
            N + plusCount (⟨Action.sub, line⟩ :: cs) -
              subCount (⟨Action.sub, line⟩ :: cs) := by
          simp [plusCount, subCount, List.countP_cons]
          omega
        rw [← harith]
        exact hih.2.2.2

/-- The spec fold allocates exactly one fresh TUID per `'+'` change. -/
theorem specTuidFold_next (cs : List Change) :
    ∀ (l : List Int) (t : Int), (specTuidFold l t cs).2.1 = t + plusCount cs := by
  induction cs with
  | nil => intro l t; simp [specTuidFold, plusCount]
  | cons c cs ih =>
    intro l t
    obtain ⟨action, line⟩ := c
    cases action with
    | add =>
      show (specTuidFold (spliceAt line t l) (t + 1) cs).2.1 = _
      rw [ih]
      simp only [plusCount, List.countP_cons, decide_eq_true_eq]
      simp
      ring
    | sub =>
      show (specTuidFold (removeAt line l) t cs).2.1 = _
      rw [ih]
      simp [plusCount, List.countP_cons]

/-- An in-range change sequence never deletes more entries than exist. -/
theorem changesInRange_sub_le (cs : List Change) :
    ∀ N : Nat, changesInRange N cs = true → subCount cs ≤ N + plusCount cs := by
  induction cs with
  | nil => intro N h; simp [subCount]
  | cons c cs ih =>
    intro N h
    obtain ⟨action, line⟩ := c
    cases action with
    | add =>
      simp only [changesInRange, changeLen, Bool.and_eq_true, decide_eq_true_eq] at h
      have hrec := ih (N + 1) h.2
      simp only [plusCount, subCount, List.countP_cons] at hrec ⊢
      simp at hrec ⊢
      omega
    | sub =>
      simp only [changesInRange, changeLen, Bool.and_eq_true, decide_eq_true_eq] at h
      have hrec := ih (N - 1) h.2
      simp only [plusCount, subCount, List.countP_cons] at hrec ⊢
      simp at hrec ⊢
      omega

/-- A dense 1-based annotation is already sorted by line, so the copy-and-sort
at the top of `_apply_diff` leaves it unchanged. -/
theorem sortByLine_of_dense (A : List TuidMap) (N : Nat)
    (h : A.map TuidMap.line = List.range' 1 N) : sortByLine A = A := by
  apply List.Sorted.insertionSort_eq
  have hp : List.Pairwise (fun a b : Nat => a ≤ b) (A.map TuidMap.line) := by
    rw [h]
    exact List.pairwise_le_range' 1 N
  exact List.pairwise_map.mp hp

/-- **C4 (amended).** For every dense 1-based annotation and every non-merge
diff whose first entry matching `file` carries changes that all land inside
the current annotation (`'+'` at position `c.line + 1 ≤ len + 1`, `'-'` at
position `c.line + 1 ≤ len`), `_apply_diff` applies the changes in the order
delivered: on the TUID sequence each `'+'` splices one fresh TUID
(`next, next + 1, …`) at 1-based position `c.line + 1` and each `'-'`
removes the entry at position `c.line + 1` (`specTuidFold`); line numbers of
subsequent entries shift so the numbering stays dense; the pending temporal
log records `(fresh tuid, cset, file, c.line + 1)` per `'+'` in order; and
the output length equals the input length plus the number of `'+'` changes
minus the number of `'-'` changes. -/
theorem apply_diff_applies_changes_in_order
    (next : Int) (ann : List TuidMap) (diff : FileDiff) (cset file : String)
    (N : Nat) (e : DiffEntry)
    (hmerge : diff.merge = false)
    (hfile : (lstrip_slash file == "dev/null") = false)
    (hfind : diff.diffs.find? (fun f_proc =>
        lstrip_slash f_proc.new_name == file ||
        lstrip_slash f_proc.old_name == file) = some e)
    (hdev : ((lstrip_slash e.old_name != lstrip_slash e.new_name) &&
        (lstrip_slash e.new_name == "dev/null")) = false)
    (hdense : ann.map TuidMap.line = List.range' 1 N)
    (hrange : changesInRange N e.changes = true) :
    (apply_diff_fn next ann diff cset file).file =
      (if lstrip_slash e.old_name != lstrip_slash e.new_name
        then lstrip_slash e.new_name else file) ∧
    (apply_diff_fn next ann diff cset file).ann.map TuidMap.tuid =
      (specTuidFold (ann.map TuidMap.tuid) next e.changes).1 ∧
    (apply_diff_fn next ann diff cset file).next_tuid =
      next + plusCount e.changes ∧
    (apply_diff_fn next ann diff cset file).inserts =
      (specTuidFold (ann.map TuidMap.tuid) next e.changes).2.2.map
        (fun tp => (tp.1, cset,
          (if lstrip_slash e.old_name != lstrip_slash e.new_name
            then lstrip_slash e.new_name else file), tp.2)) ∧
    (apply_diff_fn next ann diff cset file).ann.map TuidMap.line =
      List.range' 1 (N + plusCount e.changes - subCount e.changes) ∧
    (((apply_diff_fn next ann diff cset file).ann.length : Int) =
      (ann.length : Int) + (plusCount e.changes : Int) -
        (subCount e.changes : Int)) := by
  have hsort : sortByLine ann = ann := sortByLine_of_dense ann N hdense
  set file1 : String := if lstrip_slash e.old_name != lstrip_slash e.new_name
    then lstrip_slash e.new_name else file with hfile1
  have hred : apply_diff_fn next ann diff cset file =
      ⟨(e.changes.foldl (applyChange cset file1) ⟨next, [], sortByLine ann⟩).ann,
        file1,
        (e.changes.foldl (applyChange cset file1) ⟨next, [], sortByLine ann⟩).next_tuid,
        (e.changes.foldl (applyChange cset file1) ⟨next, [], sortByLine ann⟩).inserts⟩ := by
    unfold apply_diff_fn
    rw [if_neg (by simp [hmerge]), if_neg (by simp [hfile]), hfind]
    simp only []
    rw [if_neg (by simp [hdev])]
  have hstart : (⟨next, [], sortByLine ann⟩ : ApplyState).ann.map TuidMap.line =
      List.range' 1 N := by
    show (sortByLine ann).map TuidMap.line = _
    rw [hsort, hdense]
  have key := applyChanges_fold cset file1 e.changes ⟨next, [], sortByLine ann⟩ N
    hstart hrange
  have hanntuid : (⟨next, [], sortByLine ann⟩ : ApplyState).ann.map TuidMap.tuid =
      ann.map TuidMap.tuid := by
    show (sortByLine ann).map TuidMap.tuid = _
    rw [hsort]
  rw [hanntuid] at key
  have hlen : ann.length = N := by
    have h := congrArg List.length hdense
    simpa using h
  have hsub := changesInRange_sub_le e.changes N hrange
  refine ⟨by rw [hred], ?_, ?_, ?_, ?_, ?_⟩
  · rw [hred]
    exact key.1
  · rw [hred]
    show (e.changes.foldl (applyChange cset file1) ⟨next, [], sortByLine ann⟩).next_tuid = _
    rw [key.2.1, specTuidFold_next]
  · rw [hred]
    show (e.changes.foldl (applyChange cset file1) ⟨next, [], sortByLine ann⟩).inserts = _
    rw [key.2.2.1]
    simp
  · rw [hred]
    exact key.2.2.2
  · rw [hred]
    have hlines := key.2.2.2
    have hlenr := congrArg List.length hlines
    simp only [List.length_map, List.length_range'] at hlenr
    show (((e.changes.foldl (applyChange cset file1)
        ⟨next, [], sortByLine ann⟩).ann.length : Int)) = _
    rw [hlenr, hlen]
    omega

/-- Concrete diff entry for witnessing the amended C4: a `'+'` at line 1 and
a `'-'` at line 2 on `a.txt`, no rename. -/
def c4entry : DiffEntry := ⟨"a.txt", "a.txt", [⟨Action.add, 1⟩, ⟨Action.sub, 2⟩]⟩

/-- Concrete non-merge diff wrapping `c4entry`. -/
def c4diff : FileDiff := ⟨[c4entry], false⟩

/-- Concrete dense two-line annotation for the C4 witness. -/
def c4ann : List TuidMap := [⟨10, 1⟩, ⟨20, 2⟩]

/-- Witness for the amended C4 at a concrete input: two in-range changes on a
dense two-line annotation, with every hypothesis discharged by evaluation. -/
theorem apply_diff_applies_changes_in_order_witness :
    (c4diff.merge = false ∧
      (lstrip_slash "a.txt" == "dev/null") = false ∧
      c4diff.diffs.find? (fun f_proc =>
        lstrip_slash f_proc.new_name == "a.txt" ||
        lstrip_slash f_proc.old_name == "a.txt") = some c4entry ∧
      ((lstrip_slash c4entry.old_name != lstrip_slash c4entry.new_name) &&
        (lstrip_slash c4entry.new_name == "dev/null")) = false ∧
      c4ann.map TuidMap.line = List.range' 1 2 ∧
      changesInRange 2 c4entry.changes = true) ∧
    ((apply_diff_fn 100 c4ann c4diff "r1" "a.txt").file =
      (if lstrip_slash c4entry.old_name != lstrip_slash c4entry.new_name
        then lstrip_slash c4entry.new_name else "a.txt") ∧
    (apply_diff_fn 100 c4ann c4diff "r1" "a.txt").ann.map TuidMap.tuid =
      (specTuidFold (c4ann.map TuidMap.tuid) 100 c4entry.changes).1 ∧
    (apply_diff_fn 100 c4ann c4diff "r1" "a.txt").next_tuid =
      100 + plusCount c4entry.changes ∧
    (apply_diff_fn 100 c4ann c4diff "r1" "a.txt").inserts =
      (specTuidFold (c4ann.map TuidMap.tuid) 100 c4entry.changes).2.2.map
        (fun tp => (tp.1, "r1",
          (if lstrip_slash c4entry.old_name != lstrip_slash c4entry.new_name
            then lstrip_slash c4entry.new_name else "a.txt"), tp.2)) ∧
    (apply_diff_fn 100 c4ann c4diff "r1" "a.txt").ann.map TuidMap.line =
      List.range' 1 (2 + plusCount c4entry.changes - subCount c4entry.changes) ∧
    (((apply_diff_fn 100 c4ann c4diff "r1" "a.txt").ann.length : Int) =
      (c4ann.length : Int) + (plusCount c4entry.changes : Int) -
        (subCount c4entry.changes : Int))) :=
  ⟨⟨rfl, by decide, by decide, by decide, by decide, by decide⟩,
    apply_diff_applies_changes_in_order 100 c4ann c4diff "r1" "a.txt" 2 c4entry
      rfl (by decide) (by decide) (by decide) (by decide) (by decide)⟩

/-! ### Annotation string form (`stringify_tuids` / `destringify_tuids`,
service.py:223-240) -/

/-- `stringify_tuids` (service.py:223-231): sort the TuidMap list by line (in
place in Python), then fill a `-1`-initialised array of the input's length
with each tuid at index `line - 1`, iterating over the sorted list.  Lean's
`List.set` ignores out-of-range writes where Python would raise; the service
only calls this on dense 1-based annotations, where every write is in
range. -/
def stringify_tuids (tuid_list : List TuidMap) : List Int :=
  (sortByLine tuid_list).foldl
    (fun ordered tm => ordered.set (tm.line - 1) tm.tuid)
    (List.replicate tuid_list.length (-1))

/-- `destringify_tuids` (service.py:233-240): entry `i` of the stored list
becomes `TuidMap(tuid, i + 1)`. -/
def destringify_tuids (tuids_list : List Int) : List TuidMap :=
  tuids_list.enum.map (fun p => ⟨p.2, p.1 + 1⟩)

instance : IsTotal TuidMap (fun a b => a.line ≤ b.line) :=
  ⟨fun a b => Nat.le_total a.line b.line⟩

instance : IsTrans TuidMap (fun a b => a.line ≤ b.line) :=
  ⟨fun _ _ _ => Nat.le_trans⟩

/-- Setting index `k` then taking `k + 1` elements splits off the prefix. -/
theorem take_succ_set (x : Int) : ∀ (arr : List Int) (k : Nat),
    k < arr.length → (arr.set k x).take (k + 1) = arr.take k ++ [x] := by
  intro arr
  induction arr with
  | nil => intro k hk; simp at hk
  | cons a rest ih =>
    intro k hk
    cases k with
    | zero => simp
    | succ j =>
      show (a :: rest.set j x).take (j + 2) = (a :: rest.take j) ++ [x]
      rw [List.take_succ_cons, ih j (by simpa using hk), List.cons_append]

/-- Filling a buffer with the tuids of a line-dense list (lines
`k+1, …, k+n`) overwrites exactly the slots after the first `k`. -/
theorem fill_dense : ∀ (sl : List TuidMap) (k : Nat) (arr : List Int),
    sl.map TuidMap.line = List.range' (k + 1) sl.length →
    arr.length = k + sl.length →
    sl.foldl (fun ordered tm => ordered.set (tm.line - 1) tm.tuid) arr =
      arr.take k ++ sl.map TuidMap.tuid := by
  intro sl
  induction sl with
  | nil =>
    intro k arr hline hlen
    have h : arr.take k = arr := List.take_of_length_le (by simp at hlen; omega)
    simp [h]
  | cons tm rest ih =>
    intro k arr hline hlen
    simp only [List.map_cons, List.length_cons, List.range'_succ] at hline
    obtain ⟨h1, h2⟩ := List.cons_eq_cons.mp hline
    have hklt : k < arr.length := by simp at hlen; omega
    have hset : tm.line - 1 = k := by omega
    show rest.foldl (fun ordered tm => ordered.set (tm.line - 1) tm.tuid)
        (arr.set (tm.line - 1) tm.tuid) = arr.take k ++ (tm :: rest).map TuidMap.tuid
    rw [hset]
    have hrec := ih (k + 1) (arr.set k tm.tuid) h2
      (by simp at hlen ⊢; omega)
    rw [hrec, take_succ_set tm.tuid arr k hklt]
    simp

/-- Rebuilding TuidMaps from the tuid sequence of a line-dense list (lines
`k+1, …`) recovers the list itself. -/
theorem destringify_enumFrom : ∀ (sl : List TuidMap) (k : Nat),
    sl.map TuidMap.line = List.range' (k + 1) sl.length →
    ((sl.map TuidMap.tuid).enumFrom k).map
      (fun p => (⟨p.2, p.1 + 1⟩ : TuidMap)) = sl := by
  intro sl
  induction sl with
  | nil => intro k _; rfl
  | cons tm rest ih =>
    intro k hline
    simp only [List.map_cons, List.length_cons, List.range'_succ] at hline
    obtain ⟨h1, h2⟩ := List.cons_eq_cons.mp hline
    have hrest := ih (k + 1) h2
    show (⟨tm.tuid, k + 1⟩ : TuidMap) ::
        ((rest.map TuidMap.tuid).enumFrom (k + 1)).map
          (fun p => (⟨p.2, p.1 + 1⟩ : TuidMap)) = tm :: rest
    rw [hrest]
    obtain ⟨t, l⟩ := tm
    rw [show l = k + 1 from h1]

/-- Sorting a list whose line numbers are a permutation of `1..N` yields the
dense line numbering in order. -/
theorem sortByLine_line_range (l : List TuidMap)
    (h : (l.map TuidMap.line).Perm (List.range' 1 l.length)) :
    (sortByLine l).map TuidMap.line = List.range' 1 l.length := by
  apply List.eq_of_perm_of_sorted (r := (fun a b : Nat => a ≤ b))
  · exact ((List.perm_insertionSort _ l).map TuidMap.line).trans h
  · exact List.pairwise_map.mpr
      (List.sorted_insertionSort (fun a b : TuidMap => a.line ≤ b.line) l)
  · exact List.pairwise_le_range' 1 l.length

/-- **C9.** For every list of TuidMap pairs whose line numbers are exactly
`1..N` with each line number occurring once, `destringify_tuids ∘
stringify_tuids` returns the list sorted by line number: `stringify_tuids`
places each tuid at index `line - 1` of a length-`N` buffer, and
`destringify_tuids` inverts the encoding by pairing index `i` with line
`i + 1`. -/
theorem destringify_stringify_roundtrip (l : List TuidMap)
    (h : (l.map TuidMap.line).Perm (List.range' 1 l.length)) :
    destringify_tuids (stringify_tuids l) = sortByLine l := by
  have hslen : (sortByLine l).length = l.length :=
    (List.perm_insertionSort _ l).length_eq
  have hline : (sortByLine l).map TuidMap.line =
      List.range' (0 + 1) (sortByLine l).length := by
    rw [hslen]
    exact sortByLine_line_range l h
  have hfill := fill_dense (sortByLine l) 0 (List.replicate l.length (-1))
    hline (by simp [hslen])
  have hstr : stringify_tuids l = (sortByLine l).map TuidMap.tuid := by
    show (sortByLine l).foldl _ _ = _
    rw [hfill]
    simp
  rw [destringify_tuids, hstr, List.enum_eq_enumFrom]
  exact destringify_enumFrom (sortByLine l) 0 hline

/-- Witness for C9: a two-entry list with line numbers 2 and 1; the roundtrip
returns it sorted by line. -/
theorem destringify_stringify_roundtrip_witness :
    (([⟨10, 2⟩, ⟨20, 1⟩] : List TuidMap).map TuidMap.line).Perm
      (List.range' 1 ([⟨10, 2⟩, ⟨20, 1⟩] : List TuidMap).length) ∧
    destringify_tuids (stringify_tuids [⟨10, 2⟩, ⟨20, 1⟩]) =
      sortByLine [⟨10, 2⟩, ⟨20, 1⟩] :=
  ⟨by decide, destringify_stringify_roundtrip [⟨10, 2⟩, ⟨20, 1⟩] (by decide)⟩

/-! ### Frontier move direction (`_update_file_frontiers`, service.py:1122-1155)

The changelog-oracle list `csets_to_proc` is the ordered `(revnum, revision)`
list `get_revnnums_from_range(revision, old_frontier)` returns.  The code
first decides the direction and trims the list:

    backwards = False
    if len(csets_to_proc) >= 1:
        if revision == csets_to_proc[0][1]:
            backwards = True
            csets_to_proc = csets_to_proc[::-1][:-1]
        else:
            csets_to_proc = csets_to_proc[1:]

then walks the trimmed list, diffing each revision with
`apply_diff_backwards` when `backwards`, else with the forward `apply_diff`,
and inserts the intermediate annotation at `rev_to_proc` (the next revision
in the walk when going backwards, the diffed revision itself when going
forwards). -/

/-- Direction decision and list trim of `_update_file_frontiers`
(service.py:1122-1135). -/
def processCsets (revision : String) (csets : List (Nat × String)) :
    Bool × List (Nat × String) :=
  match csets with
  | [] => (false, [])
  | c :: rest =>
    if revision == c.2 then (true, ((c :: rest).reverse).dropLast)
    else (false, rest)

/-- One iteration of the diff-application loop: which applier runs, on which
revision's diff, and which revision the rewritten annotation is recorded
under. -/
structure FrontierOp where
  backwards : Bool
  rev : String
  rev_to_proc : String
deriving Repr, DecidableEq

/-- The diff-application loop of `_update_file_frontiers`
(service.py:1137-1169): `next_rev` is the following entry's revision (or the
requested revision at the end of the list); going backwards the diff of
`rev` is applied with `apply_diff_backwards` and recorded at `next_rev`,
going forwards with `apply_diff` and recorded at `rev` itself. -/
def frontierOps (revision : String) (backwards : Bool) :
    List (Nat × String) → List FrontierOp
  | [] => []
  | (_, rev) :: rest =>
    let next_rev := match rest with
      | [] => revision
      | (_, nr) :: _ => nr
    ⟨backwards, rev, if backwards then next_rev else rev⟩ ::
      frontierOps revision backwards rest

/-- Walking forwards, every iteration uses the forward applier on the diffed
revision and records the annotation at that same revision, in delivered
order. -/
theorem frontierOps_forward (revision : String) : ∀ l : List (Nat × String),
    frontierOps revision false l =
      l.map (fun p => ⟨false, p.2, p.2⟩) := by
  intro l
  induction l with
  | nil => rfl
  | cons p rest ih =>
    obtain ⟨n, rev⟩ := p
    show (⟨false, rev, rev⟩ : FrontierOp) :: frontierOps revision false rest = _
    rw [ih]
    rfl

/-- Walking backwards, every iteration uses the backward applier, the diffs
are taken in the order of the processed list, and each rewritten annotation
is recorded at the next revision of the walk (the requested revision for the
last step). -/
theorem frontierOps_backward_fields (revision : String) :
    ∀ l : List (Nat × String),
    ((frontierOps revision true l).map (fun op => op.backwards) =
      List.replicate l.length true) ∧
    ((frontierOps revision true l).map (fun op => op.rev) = l.map Prod.snd) ∧
    ((frontierOps revision true l).map (fun op => op.rev_to_proc) =
      (l.map Prod.snd).drop 1 ++ (if l = [] then [] else [revision])) := by
  intro l
  induction l with
  | nil => exact ⟨rfl, rfl, rfl⟩
  | cons p rest ih =>
    obtain ⟨n, rev⟩ := p
    cases rest with
    | nil => exact ⟨rfl, rfl, rfl⟩
    | cons q rs =>
      refine ⟨?_, ?_, ?_⟩
      · show true :: (frontierOps revision true (q :: rs)).map
          (fun op => op.backwards) = _
        rw [ih.1]
        rfl
      · show rev :: (frontierOps revision true (q :: rs)).map
          (fun op => op.rev) = _
        rw [ih.2.1]
        rfl
      · show q.2 :: (frontierOps revision true (q :: rs)).map
          (fun op => op.rev_to_proc) = _
        rw [ih.2.2]
        simp

/-- **C6.** In a frontier move, when the requested revision equals the first
element of the changelog-oracle list, the move is treated as backwards: the
list is reversed and the element dropped by `[:-1]` is exactly the target
(the original head), so the diffs walked are the reversal of the tail
(newest first), every iteration invokes `apply_diff_backwards`, and each
step is recorded at the next revision of the walk.  Otherwise the first
element (the current frontier) is dropped and the remaining diffs are walked
in delivered (oldest-first) order with the forward applier, each recorded at
its own revision. -/
theorem frontier_move_direction (revision : String)
    (csets : List (Nat × String)) (c : Nat × String) (rest : List (Nat × String))
    (hcons : csets = c :: rest) :
    (c.2 = revision →
      processCsets revision csets = (true, rest.reverse) ∧
      csets.reverse.dropLast = rest.reverse ∧
      ((frontierOps revision true rest.reverse).map (fun op => op.backwards) =
        List.replicate rest.reverse.length true) ∧
      ((frontierOps revision true rest.reverse).map (fun op => op.rev) =
        rest.reverse.map Prod.snd) ∧
      ((frontierOps revision true rest.reverse).map (fun op => op.rev_to_proc) =
        (rest.reverse.map Prod.snd).drop 1 ++
          (if rest.reverse = [] then [] else [revision]))) ∧
    (c.2 ≠ revision →
      processCsets revision csets = (false, rest) ∧
      frontierOps revision false rest =
        rest.map (fun p => ⟨false, p.2, p.2⟩)) := by
  subst hcons
  constructor
  · intro heq
    have hbeq : (revision == c.2) = true := by
      rw [beq_iff_eq]
      exact heq.symm
    have hproc : processCsets revision (c :: rest) =
        (true, ((c :: rest).reverse).dropLast) := by
      show (if revision == c.2 then _ else _) = _
      rw [hbeq]
      rfl
    have hdrop : ((c :: rest).reverse).dropLast = rest.reverse := by
      rw [List.reverse_cons]
      exact List.dropLast_concat
    refine ⟨?_, hdrop, ?_, ?_, ?_⟩
    · rw [hproc, hdrop]
    · exact (frontierOps_backward_fields revision rest.reverse).1
    · exact (frontierOps_backward_fields revision rest.reverse).2.1
    · exact (frontierOps_backward_fields revision rest.reverse).2.2
  · intro hne
    have hbeq : (revision == c.2) = false := by
      rw [beq_eq_false_iff_ne]
      exact fun h => hne h.symm
    have hproc : processCsets revision (c :: rest) = (false, rest) := by
      show (if revision == c.2 then _ else _) = _
      rw [hbeq]
      rfl
    exact ⟨hproc, frontierOps_forward revision rest⟩

/-- Witness for C6 at a concrete three-revision oracle list, exercising the
backward branch (requested revision at the head) and, at a different
revision, the forward branch. -/
theorem frontier_move_direction_witness :
    (([(1, "r1"), (2, "r2"), (3, "r3")] : List (Nat × String)) =
      (1, "r1") :: [(2, "r2"), (3, "r3")]) ∧
    ((((1 : Nat), "r1").2 = "r1" →
      processCsets "r1" [(1, "r1"), (2, "r2"), (3, "r3")] =
        (true, ([((2 : Nat), "r2"), (3, "r3")]).reverse) ∧
      (([((1 : Nat), "r1"), (2, "r2"), (3, "r3")]).reverse).dropLast =
        ([((2 : Nat), "r2"), (3, "r3")]).reverse ∧
      ((frontierOps "r1" true ([((2 : Nat), "r2"), (3, "r3")]).reverse).map
          (fun op => op.backwards) =
        List.replicate ([((2 : Nat), "r2"), (3, "r3")]).reverse.length true) ∧
      ((frontierOps "r1" true ([((2 : Nat), "r2"), (3, "r3")]).reverse).map
          (fun op => op.rev) =
        ([((2 : Nat), "r2"), (3, "r3")]).reverse.map Prod.snd) ∧
      ((frontierOps "r1" true ([((2 : Nat), "r2"), (3, "r3")]).reverse).map
          (fun op => op.rev_to_proc) =
        (([((2 : Nat), "r2"), (3, "r3")]).reverse.map Prod.snd).drop 1 ++
          (if ([((2 : Nat), "r2"), (3, "r3")]).reverse = ([] : List (Nat × String))
            then [] else ["r1"]))) ∧
    (((1 : Nat), "r1").2 ≠ "r1" →
      processCsets "r1" [(1, "r1"), (2, "r2"), (3, "r3")] =
        (false, [((2 : Nat), "r2"), (3, "r3")]) ∧
      frontierOps "r1" false [((2 : Nat), "r2"), (3, "r3")] =
        ([((2 : Nat), "r2"), (3, "r3")]).map (fun p => ⟨false, p.2, p.2⟩))) :=
  ⟨rfl, frontier_move_direction "r1" [(1, "r1"), (2, "r2"), (3, "r3")]
    (1, "r1") [(2, "r2"), (3, "r3")] rfl⟩

/-! ### Work-overflow threshold and batching (`get_tuids_from_files`,
service.py:668-717) -/

/-- `FILES_TO_PROCESS_THRESH` (service.py:46). -/
def FILES_TO_PROCESS_THRESH : Nat := 5

/-- `WORK_OVERFLOW_BATCH_SIZE` (service.py:43). -/
def WORK_OVERFLOW_BATCH_SIZE : Nat := 250

/-- The work-overflow batching loop (service.py:679-697):

    while curr_ind <= len(frontier_update_list) or curr_ind <= len(new_files):
        prev_ind = curr_ind
        curr_ind += WORK_OVERFLOW_BATCH_SIZE
        Thread.run(..., new_files[prev_ind:curr_ind],
                        frontier_update_list[prev_ind:curr_ind], ...)

Each iteration hands one slice pair of both work lists to a worker thread;
the function returns those slice pairs in spawn order. -/
def overflowBatches (new_files frontier_update_list : List String)
    (curr_ind : Nat) : List (List String × List String) :=
  if _h : curr_ind ≤ frontier_update_list.length ∨ curr_ind ≤ new_files.length then
    ((new_files.drop curr_ind).take WORK_OVERFLOW_BATCH_SIZE,
      (frontier_update_list.drop curr_ind).take WORK_OVERFLOW_BATCH_SIZE) ::
      overflowBatches new_files frontier_update_list
        (curr_ind + WORK_OVERFLOW_BATCH_SIZE)
  else []
termination_by new_files.length + frontier_update_list.length + 1 - curr_ind
decreasing_by
  simp only [WORK_OVERFLOW_BATCH_SIZE]
  omega

/-- The dispatch stage of `get_tuids_from_files` (service.py:668-717),
parametric in the inline executor (`update_tuids_in_thread`):
`threaded` is set iff `use_thread` and the number of new plus
frontier-movable files exceeds `FILES_TO_PROCESS_THRESH`; if threaded, only
the already-collected cache hits are returned with `completed = false` and
the work is spawned in `overflowBatches`; otherwise the executor runs inline
and its results are appended, with `completed = true` (its initial value)
and no worker spawned. -/
def dispatchWork {R : Type} (use_thread : Bool) (cached : List R)
    (new_files frontier_update_list : List String)
    (execInline : List String → List String → List R) :
    List R × Bool × List (List String × List String) :=
  let threaded := use_thread &&
    decide (new_files.length + frontier_update_list.length >
      FILES_TO_PROCESS_THRESH)
  if threaded then
    (cached, false, overflowBatches new_files frontier_update_list 0)
  else
    (cached ++ execInline new_files frontier_update_list, true, [])

/-- The batches spawned by the overflow loop partition both work lists: the
first components concatenate to the new-file list and the second components
to the frontier-update list (from index `curr_ind` on), and every batch
holds at most `WORK_OVERFLOW_BATCH_SIZE` elements of each list. -/
theorem overflowBatches_partition (nf ful : List String) :
    ∀ (fuel curr : Nat), fuel = nf.length + ful.length + 1 - curr →
    ((overflowBatches nf ful curr).map Prod.fst).flatten = nf.drop curr ∧
    ((overflowBatches nf ful curr).map Prod.snd).flatten = ful.drop curr ∧
    ∀ b ∈ overflowBatches nf ful curr,
      b.1.length ≤ WORK_OVERFLOW_BATCH_SIZE ∧
      b.2.length ≤ WORK_OVERFLOW_BATCH_SIZE := by
  intro fuel
  induction fuel using Nat.strong_induction_on with
  | _ fuel ih =>
    intro curr hfuel
    rw [overflowBatches]
    split
    case isTrue h =>
      have hfuel2 : nf.length + ful.length + 1 - (curr + WORK_OVERFLOW_BATCH_SIZE) <
          fuel := by
        simp only [WORK_OVERFLOW_BATCH_SIZE]
        omega
      have hrec := ih _ hfuel2 (curr + WORK_OVERFLOW_BATCH_SIZE) rfl
      refine ⟨?_, ?_, ?_⟩
      · show (nf.drop curr).take WORK_OVERFLOW_BATCH_SIZE ++
          ((overflowBatches nf ful (curr + WORK_OVERFLOW_BATCH_SIZE)).map
            Prod.fst).flatten = nf.drop curr
        rw [hrec.1]
        have hdd : nf.drop (curr + WORK_OVERFLOW_BATCH_SIZE) =
            (nf.drop curr).drop WORK_OVERFLOW_BATCH_SIZE := by
          rw [List.drop_drop, Nat.add_comm]
        rw [hdd, List.take_append_drop]
      · show (ful.drop curr).take WORK_OVERFLOW_BATCH_SIZE ++
          ((overflowBatches nf ful (curr + WORK_OVERFLOW_BATCH_SIZE)).map
            Prod.snd).flatten = ful.drop curr
        rw [hrec.2.1]
        have hdd : ful.drop (curr + WORK_OVERFLOW_BATCH_SIZE) =
            (ful.drop curr).drop WORK_OVERFLOW_BATCH_SIZE := by
          rw [List.drop_drop, Nat.add_comm]
        rw [hdd, List.take_append_drop]
      · intro b hb
        rcases List.mem_cons.mp hb with hb1 | hb2
        · subst hb1
          constructor
          · simp
          · simp
        · exact hrec.2.2 b hb2
    case isFalse h =>
      push_neg at h
      refine ⟨?_, ?_, by intro b hb; simp at hb⟩
      · simp [List.drop_eq_nil_of_le (by omega : nf.length ≤ curr)]
      · simp [List.drop_eq_nil_of_le (by omega : ful.length ≤ curr)]

/-- The overflow loop always spawns at least one worker (the loop condition
holds at `curr_ind = 0`). -/
theorem overflowBatches_ne_nil (nf ful : List String) :
    overflowBatches nf ful 0 ≠ [] := by
  rw [overflowBatches]
  simp

/-- **C7.** `get_tuids_from_files` returns `completed = false` iff work was
deferred to background workers: exactly when `use_thread` is set and the
number of new plus frontier-movable files exceeds `FILES_TO_PROCESS_THRESH`
(5), the work lists are partitioned into batches of at most
`WORK_OVERFLOW_BATCH_SIZE` (250) whose concatenation recovers both lists,
each batch handed to a worker thread, and only the cache hits are returned;
otherwise the work runs inline, its results are appended to the cache hits,
and `completed = true` with no worker spawned. -/
theorem dispatch_threshold_policy {R : Type} (use_thread : Bool)
    (cached : List R) (nf ful : List String)
    (execInline : List String → List String → List R) :
    FILES_TO_PROCESS_THRESH = 5 ∧ WORK_OVERFLOW_BATCH_SIZE = 250 ∧
    (((dispatchWork use_thread cached nf ful execInline).2.1 = false ↔
      (use_thread = true ∧ nf.length + ful.length > FILES_TO_PROCESS_THRESH)) ∧
    ((dispatchWork use_thread cached nf ful execInline).2.1 = false ↔
      (dispatchWork use_thread cached nf ful execInline).2.2 ≠ []) ∧
    (use_thread = true ∧ nf.length + ful.length > FILES_TO_PROCESS_THRESH →
      (dispatchWork use_thread cached nf ful execInline).1 = cached ∧
      (((dispatchWork use_thread cached nf ful execInline).2.2.map
          Prod.fst).flatten = nf ∧
        ((dispatchWork use_thread cached nf ful execInline).2.2.map
          Prod.snd).flatten = ful) ∧
      ∀ b ∈ (dispatchWork use_thread cached nf ful execInline).2.2,
        b.1.length ≤ WORK_OVERFLOW_BATCH_SIZE ∧
        b.2.length ≤ WORK_OVERFLOW_BATCH_SIZE) ∧
    (¬(use_thread = true ∧ nf.length + ful.length > FILES_TO_PROCESS_THRESH) →
      (dispatchWork use_thread cached nf ful execInline).1 =
        cached ++ execInline nf ful ∧
      (dispatchWork use_thread cached nf ful execInline).2.1 = true ∧
      (dispatchWork use_thread cached nf ful execInline).2.2 = [])) := by
  refine ⟨rfl, rfl, ?_⟩
  have hpart := overflowBatches_partition nf ful
    (nf.length + ful.length + 1) 0 (by omega)
  by_cases hthr : use_thread = true ∧
      nf.length + ful.length > FILES_TO_PROCESS_THRESH
  · have hb : (use_thread &&
        decide (nf.length + ful.length > FILES_TO_PROCESS_THRESH)) = true := by
      rw [Bool.and_eq_true, decide_eq_true_eq]
      exact hthr
    have hred : dispatchWork use_thread cached nf ful execInline =
        (cached, false, overflowBatches nf ful 0) := by
      unfold dispatchWork
      rw [hb]
      rfl
    rw [hred]
    refine ⟨by simpa using hthr, ?_, ?_, ?_⟩
    · simpa using overflowBatches_ne_nil nf ful
    · intro _
      refine ⟨rfl, ⟨?_, ?_⟩, hpart.2.2⟩
      · simpa using hpart.1
      · simpa using hpart.2.1
    · intro hcon
      exact absurd hthr hcon
  · have hb : (use_thread &&
        decide (nf.length + ful.length > FILES_TO_PROCESS_THRESH)) = false := by
      rw [Bool.and_eq_false_iff]
      by_cases hu : use_thread = true
      · right
        rw [decide_eq_false_iff_not]
        intro hgt
        exact hthr ⟨hu, hgt⟩
      · left
        simpa using hu
    have hred : dispatchWork use_thread cached nf ful execInline =
        (cached ++ execInline nf ful, true, []) := by
      unfold dispatchWork
      rw [hb]
      rfl
    rw [hred]
    refine ⟨?_, ?_, ?_, ?_⟩
    · simp only [Bool.true_eq_false, false_iff]
      exact hthr
    · simp
    · intro hcon
      exact absurd hcon hthr
    · intro _
      exact ⟨rfl, rfl, rfl⟩
